import Mathlib

/-!
Verification of the indicator and ingestion helpers of the
algo-trading-playground repository.

The embedding below follows `src/helper_functions/indicators.py`
(`sma`, `_calculate_point_rsi`, `rsi`) and the pure control-flow skeleton of
`src/helper_functions/ingestion.py` (`get_price_data_and_rsi`).  Machine
floating-point arithmetic is modelled by exact rationals, NaN cells by
`Option`, and the `IndexError` raised by `rsi` on short inputs by `none`.
-/

namespace AlgoTrading

/-- Model of `np.diff(prices)`: the list of consecutive differences
`prices[i+1] - prices[i]`. -/
def deltas (prices : List ℚ) : List ℚ :=
  List.zipWith (fun a b => b - a) prices prices.tail

/-- Model of `np.where(deltas > 0, deltas, 0)` applied pointwise. -/
def upChange (d : ℚ) : ℚ := if 0 < d then d else 0

/-- Model of `np.where(deltas < 0, -deltas, 0)` applied pointwise. -/
def downChange (d : ℚ) : ℚ := if d < 0 then -d else 0

/-- Model of `_calculate_point_rsi` from `indicators.py`: if the mean
downward movement is nonzero return `100 - 100 / (1 + RS)` with
`RS = mean_upward / mean_downward`, otherwise return `100`. -/
def calculate_point_rsi (mean_upward mean_downward : ℚ) : ℚ :=
  if mean_downward ≠ 0 then
    100 - 100 / (1 + mean_upward / mean_downward)
  else
    100

/-- The pair `(mean_upward, mean_downward)` carried by the loop of `rsi`,
as it stands when the output at index `period + k` is written.  `k = 0` is
the seed (`np.mean(changes[:period])`); each later step applies Wilder
smoothing with the change at position `period + k - 1`. -/
def meansAt (up down : List ℚ) (period : ℕ) : ℕ → ℚ × ℚ
  | 0 =>
      ((up.take period).sum / (period : ℚ),
       (down.take period).sum / (period : ℚ))
  | k + 1 =>
      let m := meansAt up down period k
      ((m.1 * ((period : ℚ) - 1) + up.getD (period + k) 0) / (period : ℚ),
       (m.2 * ((period : ℚ) - 1) + down.getD (period + k) 0) / (period : ℚ))

/-- Model of `rsi` from `indicators.py`.  The python function allocates
`np.zeros(len(prices))` and then assigns `rsi[period]` and `rsi[i]` for
`i = period+1 .. len(prices)-1`; when `period ≥ len(prices)` the assignment
`rsi[period] = ...` raises `IndexError`, modelled here by `none`. -/
def rsi (prices : List ℚ) (period : ℕ) : Option (List ℚ) :=
  if period < prices.length then
    let up := (deltas prices).map upChange
    let down := (deltas prices).map downChange
    some ((List.range prices.length).map fun i =>
      if i < period then 0
      else
        let m := meansAt up down period (i - period)
        calculate_point_rsi m.1 m.2)
  else
    none

/-- Model of `sma` from `indicators.py`:
`pd.Series(values).rolling(n).mean()`.  A rolling window of size `n` is
complete at position `i` exactly when `n ≤ i + 1`; incomplete windows give
NaN, modelled by `none`. -/
def sma (values : List ℚ) (n : ℕ) : List (Option ℚ) :=
  (List.range values.length).map fun i =>
    if n ≤ i + 1 then
      some (((values.drop (i + 1 - n)).take n).sum / (n : ℚ))
    else
      none

/-- The raw price columns of a table produced by `yf.download` for one
ticker, as consumed by `get_price_data_and_rsi`. -/
def rawPriceColumns : List String := ["Open", "High", "Low", "Close", "Adj Close", "Volume"]

/-- The name of the RSI column that `get_price_data_and_rsi` attaches for a
period, from the line `data[f'rsi_{period}'] = rsi(data['Close'], period)`. -/
def rsiColName (period : ℕ) : String := "rsi_" ++ toString period

/-- The columns of the returned table: the raw price columns plus one RSI
column per requested period.  (`Ticker` and `Date` become the index, not
columns, via `set_index`.) -/
def outputColumns (rsi_periods : List ℕ) : List String :=
  rawPriceColumns ++ rsi_periods.map rsiColName

/-- The message of the `ValueError` raised by `get_price_data_and_rsi`. -/
def batchSizeError : String := "logger_batch_size cannot exceed the number of tickers."

/-- Pure skeleton of `get_price_data_and_rsi` from `ingestion.py`.  The
first component records which tickers the download loop fetches; the second
is the result: the `ValueError` raised by the pre-loop validation, or the
column list of the returned table.  The only pre-fetch validation in the
source is the `logger_batch_size > len(tickers)` check. -/
def get_price_data_and_rsi (tickers : List String) (rsi_periods : List ℕ)
    (logger_batch_size : Option ℕ) : List String × Except String (List String) :=
  match logger_batch_size with
  | some b =>
      if tickers.length < b then
        ([], Except.error batchSizeError)
      else
        (tickers, Except.ok (outputColumns rsi_periods))
  | none => (tickers, Except.ok (outputColumns rsi_periods))

/-! ### Helper lemmas -/

theorem upChange_nonneg (d : ℚ) : 0 ≤ upChange d := by
  unfold upChange; split <;> linarith

theorem downChange_nonneg (d : ℚ) : 0 ≤ downChange d := by
  unfold downChange; split <;> linarith

theorem getD_nonneg {l : List ℚ} (h : ∀ x ∈ l, 0 ≤ x) (i : ℕ) : 0 ≤ l.getD i 0 := by
  by_cases hi : i < l.length
  · rw [List.getD_eq_getElem l 0 hi]
    exact h _ (l.getElem_mem hi)
  · rw [List.getD_eq_default l 0 (not_lt.mp hi)]

theorem sum_eq_zero_iff_of_nonneg {l : List ℚ} (h : ∀ x ∈ l, 0 ≤ x) :
    l.sum = 0 ↔ ∀ x ∈ l, x = 0 := by
  induction l with
  | nil => simp
  | cons a t ih =>
    have ha : 0 ≤ a := h a (by simp)
    have ht : ∀ x ∈ t, 0 ≤ x := fun x hx => h x (by simp [hx])
    have hts : 0 ≤ t.sum := List.sum_nonneg ht
    constructor
    · intro hs
      have has : a = 0 ∧ t.sum = 0 := by
        constructor <;> [skip; skip] <;> simp only [List.sum_cons] at hs <;> linarith
      intro x hx
      rcases List.mem_cons.mp hx with hx | hx
      · rw [hx]; exact has.1
      · exact ((ih ht).mp has.2) x hx
    · intro hz
      simp only [List.sum_cons]
      rw [hz a (by simp), (ih ht).mpr fun x hx => hz x (by simp [hx])]
      ring

theorem meansAt_zero (up down : List ℚ) (p : ℕ) :
    meansAt up down p 0 =
      ((up.take p).sum / (p : ℚ), (down.take p).sum / (p : ℚ)) := rfl

theorem meansAt_succ (up down : List ℚ) (p k : ℕ) :
    meansAt up down p (k + 1) =
      (((meansAt up down p k).1 * ((p : ℚ) - 1) + up.getD (p + k) 0) / (p : ℚ),
       ((meansAt up down p k).2 * ((p : ℚ) - 1) + down.getD (p + k) 0) / (p : ℚ)) := rfl

theorem meansAt_nonneg (up down : List ℚ) (p : ℕ) (hp : 1 ≤ p)
    (hup : ∀ x ∈ up, 0 ≤ x) (hdown : ∀ x ∈ down, 0 ≤ x) (k : ℕ) :
    0 ≤ (meansAt up down p k).1 ∧ 0 ≤ (meansAt up down p k).2 := by
  have hpq : (0 : ℚ) ≤ (p : ℚ) := Nat.cast_nonneg p
  have hp1 : (0 : ℚ) ≤ (p : ℚ) - 1 := by
    have : (1 : ℚ) ≤ (p : ℚ) := by exact_mod_cast hp
    linarith
  induction k with
  | zero =>
    constructor <;> apply div_nonneg _ hpq
    · exact List.sum_nonneg fun x hx => hup x (List.take_subset _ _ hx)
    · exact List.sum_nonneg fun x hx => hdown x (List.take_subset _ _ hx)
  | succ k ih =>
    rw [meansAt_succ]
    constructor <;> apply div_nonneg _ hpq
    · have := mul_nonneg ih.1 hp1
      have := getD_nonneg hup (p + k)
      linarith
    · have := mul_nonneg ih.2 hp1
      have := getD_nonneg hdown (p + k)
      linarith

theorem calculate_point_rsi_nonneg (u d : ℚ) (hu : 0 ≤ u) (hd : 0 ≤ d) :
    0 ≤ calculate_point_rsi u d := by
  unfold calculate_point_rsi
  split
  · rename_i hne
    have hd' : 0 < d := lt_of_le_of_ne hd (Ne.symm hne)
    have hrs : 0 ≤ u / d := div_nonneg hu hd
    have h1 : (0 : ℚ) < 1 + u / d := by linarith
    have : 100 / (1 + u / d) ≤ 100 := by
      rw [div_le_iff₀ h1]; nlinarith
    linarith
  · norm_num

theorem calculate_point_rsi_le_100 (u d : ℚ) (hu : 0 ≤ u) (hd : 0 ≤ d) :
    calculate_point_rsi u d ≤ 100 := by
  unfold calculate_point_rsi
  split
  · rename_i hne
    have hd' : 0 < d := lt_of_le_of_ne hd (Ne.symm hne)
    have h1 : (0 : ℚ) < 1 + u / d := by
      have : 0 ≤ u / d := div_nonneg hu hd
      linarith
    have : 0 < 100 / (1 + u / d) := div_pos (by norm_num) h1
    linarith
  · exact le_refl _

theorem calculate_point_rsi_lt_100_iff (u d : ℚ) (hu : 0 ≤ u) (hd : 0 ≤ d) :
    calculate_point_rsi u d < 100 ↔ d ≠ 0 := by
  unfold calculate_point_rsi
  split
  · rename_i hne
    have hd' : 0 < d := lt_of_le_of_ne hd (Ne.symm hne)
    have h1 : (0 : ℚ) < 1 + u / d := by
      have : 0 ≤ u / d := div_nonneg hu hd
      linarith
    have : 0 < 100 / (1 + u / d) := div_pos (by norm_num) h1
    exact ⟨fun _ => hne, fun _ => by linarith⟩
  · rename_i hne
    simp only [not_not] at hne
    simp [hne]

/-- Shape of a successful `rsi` run: the output list is as long as the input,
holds `0` before index `period`, and `pointRSI` of the carried means from
index `period` on. -/
theorem rsi_getD (prices : List ℚ) (p : ℕ) (hlen : p < prices.length)
    (l : List ℚ) (hl : rsi prices p = some l) :
    l.length = prices.length ∧
      ∀ dflt i, i < prices.length →
        l.getD i dflt =
          if i < p then 0
          else
            calculate_point_rsi
              (meansAt ((deltas prices).map upChange) ((deltas prices).map downChange) p (i - p)).1
              (meansAt ((deltas prices).map upChange) ((deltas prices).map downChange) p (i - p)).2 := by
  unfold rsi at hl
  rw [if_pos hlen] at hl
  have hl' := (Option.some.injEq _ _).mp hl
  subst hl'
  refine ⟨by simp, ?_⟩
  intro dflt i hi
  rw [List.getD_eq_getElem _ dflt (by simpa using hi)]
  simp [hi]

theorem mapped_upChange_nonneg (ds : List ℚ) : ∀ x ∈ ds.map upChange, 0 ≤ x := by
  intro x hx
  obtain ⟨d, _, rfl⟩ := List.mem_map.mp hx
  exact upChange_nonneg d

theorem mapped_downChange_nonneg (ds : List ℚ) : ∀ x ∈ ds.map downChange, 0 ≤ x := by
  intro x hx
  obtain ⟨d, _, rfl⟩ := List.mem_map.mp hx
  exact downChange_nonneg d

/-- If every downward change is zero, the carried mean downward movement is
zero at every step of the recurrence. -/
theorem meansAt_snd_of_all_zero (up down : List ℚ) (p k : ℕ)
    (hz : ∀ x ∈ down, x = 0) : (meansAt up down p k).2 = 0 := by
  induction k with
  | zero =>
    have hs : (down.take p).sum = 0 :=
      List.sum_eq_zero fun x hx => hz x (List.take_subset _ _ hx)
    rw [meansAt_zero]
    simp [hs]
  | succ k ih =>
    have hd : down.getD (p + k) 0 = 0 := by
      by_cases h : p + k < down.length
      · rw [List.getD_eq_getElem _ _ h]
        exact hz _ (List.getElem_mem h)
      · exact List.getD_eq_default _ _ (not_lt.mp h)
    rw [meansAt_succ, ih, hd]
    simp

/-! ### Claim theorems -/

/-- C2 counterexample: for `prices = [1, 2]` and `period = 2` (a period equal
to the sequence length), `rsi` fails with an index error (`none`); it does
not return the zero-filled same-length sequence `[0, 0]` the claim asks for. -/
theorem rsi_short_input_counterexample :
    ([1, 2] : List ℚ).length ≤ 2 ∧
    rsi [1, 2] 2 ≠ some [0, 0] ∧
    rsi [1, 2] 2 = none := by
  refine ⟨by norm_num, ?_, by norm_num [rsi]⟩
  simp [rsi]

/-- C2 (amended): for every price sequence and every period greater than or
equal to the sequence's length, `rsi` raises an index error — modelled as
`none` — instead of producing any output sequence. -/
theorem rsi_short_input_fails (prices : List ℚ) (p : ℕ)
    (h : prices.length ≤ p) : rsi prices p = none := by
  unfold rsi
  rw [if_neg (not_lt.mpr h)]

/-- C2 witness: the amended theorem applied at `prices = [1, 2]`, `p = 3`. -/
theorem rsi_short_input_fails_witness : rsi [1, 2] 3 = none :=
  rsi_short_input_fails [1, 2] 3 (by norm_num)

/-- C3: for `p ≥ 1` and a price sequence longer than `p`, the output of
`rsi` has the same length as the input and every entry at an index `i < p`
is exactly `0`. -/
theorem rsi_zero_before_period (prices : List ℚ) (p : ℕ) (hp : 1 ≤ p)
    (hlen : p < prices.length) (l : List ℚ) (hl : rsi prices p = some l) :
    l.length = prices.length ∧ ∀ i, i < p → l.getD i 1 = 0 := by
  obtain ⟨hlength, hget⟩ := rsi_getD prices p hlen l hl
  refine ⟨hlength, fun i hi => ?_⟩
  rw [hget 1 i (lt_trans hi hlen)]
  simp [hi]

/-- C3 witness: `rsi [1, 2, 3] 1 = some [0, 100, 100]`, whose length is `3`
and whose entry before index `1` is `0`. -/
theorem rsi_zero_before_period_witness :
    ([0, 100, 100] : List ℚ).length = ([1, 2, 3] : List ℚ).length ∧
    ∀ i, i < 1 → ([0, 100, 100] : List ℚ).getD i 1 = 0 :=
  rsi_zero_before_period [1, 2, 3] 1 (by norm_num) (by norm_num) [0, 100, 100]
    (by norm_num [rsi, deltas, meansAt, upChange, downChange,
      calculate_point_rsi, List.range_succ])

/-- C4: for `p ≥ 1` and a price sequence longer than `p`, every output entry
of `rsi` at an index `i ≥ p` lies in `[0, 100]`: the carried means stay
non-negative through every step, so `pointRSI` is always bounded. -/
theorem rsi_bounded (prices : List ℚ) (p : ℕ) (hp : 1 ≤ p)
    (hlen : p < prices.length) (l : List ℚ) (hl : rsi prices p = some l)
    (i : ℕ) (hpi : p ≤ i) (hi : i < prices.length) :
    0 ≤ l.getD i 0 ∧ l.getD i 0 ≤ 100 := by
  obtain ⟨_, hget⟩ := rsi_getD prices p hlen l hl
  rw [hget 0 i hi, if_neg (not_lt.mpr hpi)]
  have hm := meansAt_nonneg ((deltas prices).map upChange)
    ((deltas prices).map downChange) p hp
    (mapped_upChange_nonneg (deltas prices)) (mapped_downChange_nonneg (deltas prices)) (i - p)
  exact ⟨calculate_point_rsi_nonneg _ _ hm.1 hm.2,
    calculate_point_rsi_le_100 _ _ hm.1 hm.2⟩

/-- C4 witness: the bound at `prices = [2, 1, 2]`, `p = 1`, `i = 1`. -/
theorem rsi_bounded_witness :
    0 ≤ ([0, 0, 100] : List ℚ).getD 1 0 ∧ ([0, 0, 100] : List ℚ).getD 1 0 ≤ 100 :=
  rsi_bounded [2, 1, 2] 1 (by norm_num) (by norm_num) [0, 0, 100]
    (by norm_num [rsi, deltas, meansAt, upChange, downChange,
      calculate_point_rsi, List.range_succ])
    1 (by norm_num) (by norm_num)

/-- C5: for `p ≥ 1` and a price sequence longer than `p` whose consecutive
deltas are all non-negative, every output entry of `rsi` at an index
`i ≥ p` equals exactly `100`. -/
theorem rsi_monotone_eq_100 (prices : List ℚ) (p : ℕ) (hp : 1 ≤ p)
    (hlen : p < prices.length) (hmono : ∀ d ∈ deltas prices, 0 ≤ d)
    (l : List ℚ) (hl : rsi prices p = some l)
    (i : ℕ) (hpi : p ≤ i) (hi : i < prices.length) : l.getD i 0 = 100 := by
  obtain ⟨_, hget⟩ := rsi_getD prices p hlen l hl
  rw [hget 0 i hi, if_neg (not_lt.mpr hpi)]
  have hz : ∀ x ∈ (deltas prices).map downChange, x = 0 := by
    intro x hx
    obtain ⟨d, hd, rfl⟩ := List.mem_map.mp hx
    unfold downChange
    rw [if_neg (not_lt.mpr (hmono d hd))]
  rw [meansAt_snd_of_all_zero _ _ p (i - p) hz]
  unfold calculate_point_rsi
  simp

/-- C5 witness: non-decreasing prices `[1, 2, 3]` with `p = 1` give RSI
`100` at index `2`. -/
theorem rsi_monotone_eq_100_witness : ([0, 100, 100] : List ℚ).getD 2 0 = 100 :=
  rsi_monotone_eq_100 [1, 2, 3] 1 (by norm_num) (by norm_num)
    (by norm_num [deltas]) [0, 100, 100]
    (by norm_num [rsi, deltas, meansAt, upChange, downChange,
      calculate_point_rsi, List.range_succ])
    2 (by norm_num) (by norm_num)

theorem take_drop_eq_map_range (l : List ℚ) (a n : ℕ) (h : a + n ≤ l.length) :
    (l.drop a).take n = (List.range n).map fun j => l.getD (a + j) 0 := by
  apply List.ext_getElem
  · simp
    omega
  · intro i h1 h2
    simp only [List.getElem_take, List.getElem_drop, List.getElem_map, List.getElem_range]
    rw [List.getD_eq_getElem _ _ (by simp at h1; omega)]

/-- C6: `sma(values, n)` has the same length as the input, holds no value at
indices `i < n - 1` (i.e. `i + 1 < n`), and at every index `i ≥ n - 1` holds
the exact arithmetic mean of `values[i-n+1 .. i]`. -/
theorem sma_rolling_mean (values : List ℚ) (n : ℕ) (hn : 1 ≤ n) :
    (sma values n).length = values.length ∧
    (∀ i, i < values.length → i + 1 < n → (sma values n).getD i (some 0) = none) ∧
    (∀ i, i < values.length → n ≤ i + 1 →
      (sma values n).getD i none =
        some (((List.range n).map fun j => values.getD (i + 1 - n + j) 0).sum / (n : ℚ))) := by
  refine ⟨by simp [sma], ?_, ?_⟩
  · intro i hi hin
    unfold sma
    rw [List.getD_eq_getElem _ _ (by simpa using hi)]
    simp only [List.getElem_map, List.getElem_range]
    rw [if_neg (by omega)]
  · intro i hi hni
    unfold sma
    rw [List.getD_eq_getElem _ _ (by simpa using hi)]
    simp only [List.getElem_map, List.getElem_range]
    rw [if_pos hni, take_drop_eq_map_range values (i + 1 - n) n (by omega)]

/-- C6 witness: the theorem applied at `values = [1, 2, 3, 4]`, `n = 2`. -/
theorem sma_rolling_mean_witness :
    (sma [1, 2, 3, 4] 2).length = ([1, 2, 3, 4] : List ℚ).length ∧
    (∀ i, i < ([1, 2, 3, 4] : List ℚ).length → i + 1 < 2 →
      (sma [1, 2, 3, 4] 2).getD i (some 0) = none) ∧
    (∀ i, i < ([1, 2, 3, 4] : List ℚ).length → 2 ≤ i + 1 →
      (sma [1, 2, 3, 4] 2).getD i none =
        some (((List.range 2).map fun j => ([1, 2, 3, 4] : List ℚ).getD (i + 1 - 2 + j) 0).sum / (2 : ℚ))) :=
  sma_rolling_mean [1, 2, 3, 4] 2 (by norm_num)

/-- C7: whenever the configured batch size exceeds the number of tickers, the
call raises the `ValueError` with its human-readable message before the
download loop runs: no ticker is fetched and no result is produced. -/
theorem batch_size_validation (tickers : List String) (rsi_periods : List ℕ)
    (b : ℕ) (hb : tickers.length < b) :
    get_price_data_and_rsi tickers rsi_periods (some b) =
      ([], Except.error batchSizeError) := by
  simp only [get_price_data_and_rsi]
  rw [if_pos hb]

/-- C7 witness: one ticker with batch size two fails validation. -/
theorem batch_size_validation_witness :
    get_price_data_and_rsi ["AAPL"] [14] (some 2) =
      ([], Except.error batchSizeError) :=
  batch_size_validation ["AAPL"] [14] 2 (by norm_num)

/-- C8 counterexample: requesting the invalid RSI period `0 < 1` raises no
configuration error — the call passes validation, fetches its ticker, and
returns normally. -/
theorem period_validation_counterexample :
    (0 : ℕ) < 1 ∧
    (get_price_data_and_rsi ["AAPL"] [0] none).1 = ["AAPL"] ∧
    (get_price_data_and_rsi ["AAPL"] [0] none).2 = Except.ok (outputColumns [0]) :=
  ⟨by norm_num, rfl, rfl⟩

/-- C8 (amended): the aggregator never validates the requested RSI periods:
a call whose period list contains a value `< 1` (with no batch size
configured, so the only existing check is skipped) still fetches every
ticker and returns normally; no error is raised before fetching. -/
theorem period_not_validated (tickers : List String) (rsi_periods : List ℕ)
    (p : ℕ) (hp : p ∈ rsi_periods) (hp1 : p < 1) :
    (get_price_data_and_rsi tickers rsi_periods none).1 = tickers ∧
    (get_price_data_and_rsi tickers rsi_periods none).2 =
      Except.ok (outputColumns rsi_periods) :=
  ⟨rfl, rfl⟩

/-- C8 witness: the amended theorem at one ticker and period list `[0]`. -/
theorem period_not_validated_witness :
    (get_price_data_and_rsi ["MSFT"] [0] none).1 = ["MSFT"] ∧
    (get_price_data_and_rsi ["MSFT"] [0] none).2 = Except.ok (outputColumns [0]) :=
  period_not_validated ["MSFT"] [0] 0 (by simp) (by norm_num)

/-- C1: the aggregation output has no `Return` column — contrary to the
docstring of `get_price_data_and_rsi` and the spec, the code never computes
a return column; a successful call returns only the raw price columns and
the RSI columns. -/
theorem no_return_column :
    "Return" ∉ outputColumns [14] ∧
    (get_price_data_and_rsi ["AAPL"] [14] none).2 = Except.ok (outputColumns [14]) :=
  ⟨by decide, rfl⟩

/-- C9: the RSI column attached for period `14` is named `rsi_14`
(lowercase), not `RSI_14` as the docstring and spec state. -/
theorem rsi_column_name_lowercase :
    rsiColName 14 = "rsi_14" ∧ "rsi_14" ≠ "RSI_14" ∧
    "rsi_14" ∈ outputColumns [14] ∧ "RSI_14" ∉ outputColumns [14] :=
  ⟨rfl, by decide, by decide, by decide⟩

theorem take_all_zero_iff (l : List ℚ) (n : ℕ) (hn : n ≤ l.length) :
    (∀ x ∈ l.take n, x = 0) ↔ ∀ j, j < n → l.getD j 0 = 0 := by
  constructor
  · intro h j hj
    have hjl : j < l.length := lt_of_lt_of_le hj hn
    rw [List.getD_eq_getElem _ _ hjl]
    apply h
    have hjt : j < (l.take n).length := by simp; omega
    have he : (l.take n)[j] = l[j] := List.getElem_take l
    rw [← he]
    exact List.getElem_mem hjt
  · intro h x hx
    obtain ⟨j, hj, rfl⟩ := List.mem_iff_getElem.mp hx
    have hjn : j < n := by simp at hj; omega
    have hjl : j < l.length := lt_of_lt_of_le hjn hn
    rw [List.getElem_take l]
    have := h j hjn
    rwa [List.getD_eq_getElem _ _ hjl] at this

/-- Characterization of the carried mean downward movement, valid for
periods `p ≥ 2`: it is zero at the step writing index `p + k` exactly when
every downward change seen so far is zero.  (For `p = 1` the recurrence
multiplies history by `p - 1 = 0`, so this fails.) -/
theorem meansAt_snd_eq_zero_iff (up down : List ℚ) (p : ℕ) (hp : 2 ≤ p)
    (hup : ∀ x ∈ up, 0 ≤ x) (hdown : ∀ x ∈ down, 0 ≤ x)
    (k : ℕ) (hk : p + k ≤ down.length) :
    ((meansAt up down p k).2 = 0 ↔ ∀ j, j < p + k → down.getD j 0 = 0) := by
  have hp1 : 1 ≤ p := by omega
  have hpq : ((p : ℚ)) ≠ 0 := by
    exact_mod_cast (by omega : p ≠ 0)
  induction k with
  | zero =>
    rw [meansAt_zero]
    simp only [Nat.add_zero]
    rw [div_eq_zero_iff]
    have htn : ∀ x ∈ down.take p, 0 ≤ x :=
      fun x hx => hdown x (List.take_subset _ _ hx)
    constructor
    · rintro (hs | hps)
      · exact (take_all_zero_iff down p (by omega)).mp
          ((sum_eq_zero_iff_of_nonneg htn).mp hs)
      · exact absurd hps hpq
    · intro hz
      left
      exact (sum_eq_zero_iff_of_nonneg htn).mpr
        ((take_all_zero_iff down p (by omega)).mpr hz)
  | succ k ih =>
    have ihh := ih (by omega)
    rw [meansAt_succ]
    have hmd := (meansAt_nonneg up down p hp1 hup hdown k).2
    have hdd := getD_nonneg hdown (p + k)
    have hp1q : (0 : ℚ) < (p : ℚ) - 1 := by
      have : (2 : ℚ) ≤ (p : ℚ) := by exact_mod_cast hp
      linarith
    constructor
    · intro h0
      rw [div_eq_zero_iff] at h0
      have hnum : (meansAt up down p k).2 * ((p : ℚ) - 1) + down.getD (p + k) 0 = 0 := by
        rcases h0 with h | h
        · exact h
        · exact absurd h hpq
      have hmul : 0 ≤ (meansAt up down p k).2 * ((p : ℚ) - 1) :=
        mul_nonneg hmd (le_of_lt hp1q)
      have hmd0 : (meansAt up down p k).2 = 0 := by
        rcases mul_eq_zero.mp (by linarith : (meansAt up down p k).2 * ((p : ℚ) - 1) = 0) with h | h
        · exact h
        · linarith
      intro j hj
      rcases lt_or_ge j (p + k) with hlt | hge
      · exact ihh.mp hmd0 j hlt
      · have hjk : j = p + k := by omega
        rw [hjk]
        linarith
    · intro hz
      have hmd0 : (meansAt up down p k).2 = 0 := ihh.mpr fun j hj => hz j (by omega)
      have hdd0 : down.getD (p + k) 0 = 0 := hz (p + k) (by omega)
      rw [hmd0, hdd0]
      simp

theorem deltas_length (prices : List ℚ) : (deltas prices).length = prices.length - 1 := by
  unfold deltas
  rw [List.length_zipWith, List.length_tail]
  omega

/-- C10 counterexample: at period `1` (allowed by the claim's `p ≥ 1`),
`rsi [2, 1, 2] 1 = [0, 0, 100]`: the first delta is negative, yet the RSI
at index `2` is `100`, not strictly less than `100` — smoothing with weight
`(p-1)/p = 0` erases all history. -/
theorem rsi_downward_iff_counterexample :
    rsi [2, 1, 2] 1 = some [0, 0, 100] ∧
    (deltas [2, 1, 2]).getD 0 0 < 0 ∧
    ¬ (([0, 0, 100] : List ℚ).getD 2 0 < 100) := by
  refine ⟨?_, by norm_num [deltas], by norm_num⟩
  norm_num [rsi, deltas, meansAt, upChange, downChange,
    calculate_point_rsi, List.range_succ]

/-- C10 (amended): for periods `p ≥ 2`, at every index `i ≥ p` the RSI value
is strictly below `100` exactly when at least one of the first `i` deltas is
negative — equivalently, the carried mean downward movement is nonzero
exactly when some downward move has occurred. -/
theorem rsi_lt_100_iff_downward (prices : List ℚ) (p : ℕ) (hp : 2 ≤ p)
    (hlen : p < prices.length) (l : List ℚ) (hl : rsi prices p = some l)
    (i : ℕ) (hpi : p ≤ i) (hi : i < prices.length) :
    (l.getD i 0 < 100 ↔ ∃ j, j < i ∧ (deltas prices).getD j 0 < 0) := by
  have hp1 : 1 ≤ p := by omega
  obtain ⟨_, hget⟩ := rsi_getD prices p hlen l hl
  rw [hget 0 i hi, if_neg (not_lt.mpr hpi)]
  have hm := meansAt_nonneg ((deltas prices).map upChange)
    ((deltas prices).map downChange) p hp1
    (mapped_upChange_nonneg (deltas prices)) (mapped_downChange_nonneg (deltas prices)) (i - p)
  rw [calculate_point_rsi_lt_100_iff _ _ hm.1 hm.2]
  have hdl : (deltas prices).length = prices.length - 1 := deltas_length prices
  have hkd : p + (i - p) ≤ ((deltas prices).map downChange).length := by
    rw [List.length_map, hdl]
    omega
  rw [ne_eq, meansAt_snd_eq_zero_iff ((deltas prices).map upChange)
    ((deltas prices).map downChange) p hp
    (mapped_upChange_nonneg (deltas prices)) (mapped_downChange_nonneg (deltas prices))
    (i - p) hkd]
  have hpk : p + (i - p) = i := by omega
  rw [hpk]
  push_neg
  constructor
  · rintro ⟨j, hj, hne⟩
    refine ⟨j, hj, ?_⟩
    have hjl : j < (deltas prices).length := by
      by_contra hge
      rw [List.getD_eq_default _ _ (by simp; omega)] at hne
      exact hne rfl
    rw [List.getD_eq_getElem _ _ (by simpa using hjl)] at hne
    rw [List.getD_eq_getElem _ _ hjl]
    rw [List.getElem_map] at hne
    unfold downChange at hne
    by_contra hge
    push_neg at hge
    rw [if_neg (not_lt.mpr hge)] at hne
    exact hne rfl
  · rintro ⟨j, hj, hneg⟩
    refine ⟨j, hj, ?_⟩
    have hjl : j < (deltas prices).length := by
      by_contra hge
      rw [List.getD_eq_default _ _ (by omega)] at hneg
      exact absurd hneg (by norm_num)
    rw [List.getD_eq_getElem _ _ hjl] at hneg
    rw [List.getD_eq_getElem _ _ (by simpa using hjl)]
    rw [List.getElem_map]
    unfold downChange
    rw [if_pos hneg]
    intro h0
    linarith

/-- C10 witness: the amended theorem at `prices = [2, 1, 2, 3]`, `p = 2`,
`i = 2`, where `rsi = [0, 0, 50, 75]` and the first delta is negative. -/
theorem rsi_lt_100_iff_downward_witness :
    ([0, 0, 50, 75] : List ℚ).getD 2 0 < 100 ↔
      ∃ j, j < 2 ∧ (deltas [2, 1, 2, 3]).getD j 0 < 0 :=
  rsi_lt_100_iff_downward [2, 1, 2, 3] 2 (by norm_num) (by norm_num)
    [0, 0, 50, 75]
    (by norm_num [rsi, deltas, meansAt, upChange, downChange,
      calculate_point_rsi, List.range_succ])
    2 (by norm_num) (by norm_num)

end AlgoTrading
